import Mathlib

/-
Verification of the trace-to-pprof conversion tool (`cmd/trace/pprof.go`).

The Go source is shallowly embedded below:
* `Frame`, `Event` model `internal/trace.Frame` / `internal/trace.Event`
  (only the fields the tool reads: `PC`, `Fn`, `File`, `Line`, resp.
  `Type`, `Ts`, `StkID`, `Stk`, `Link` — of the link only the timestamp
  `Link.Ts` is used, so the link is modelled by its optional timestamp).
* `Record` models the accumulator struct of the same name.
* `Function`, `Line`, `Location`, `Sample`, `ValueType`, `Profile`
  model the corresponding `cmd/internal/pprof/profile` structs
  (only the fields the tool writes).
* Go maps (`map[uint64]Record`, `locs`, `funcs`) are modelled as
  association lists with unique keys; map iteration order, which Go
  leaves unspecified, becomes an explicit list order, and theorems
  quantify over all record lists where the order could matter.
* Go `uint64` counters are modelled as `Nat` and `int64` timestamps as
  `Int`; none of the verified properties concern wrap-around.
-/

set_option autoImplicit false

namespace pprof

/-- Event types of `internal/trace` that `pprof.go` inspects; every other
event type behaves identically for this tool and is modelled by `EvOther`
with its numeric code. -/
inductive EvType where
  | EvGoBlockNet
  | EvGoBlockSend
  | EvGoBlockRecv
  | EvGoBlockSelect
  | EvGoBlockSync
  | EvGoBlockCond
  | EvGoSysCall
  | EvGoUnblock
  | EvGoCreate
  | EvOther (code : Nat)
  deriving DecidableEq, Repr

/-- One call-stack entry (`trace.Frame`): program counter, function name,
file name, line number. -/
structure Frame where
  pc : Nat
  fn : String
  file : String
  line : Int
  deriving DecidableEq, Repr

/-- One trace event (`trace.Event`), restricted to the fields `pprof.go`
reads.  `linkTs` is `Link.Ts` when `Link != nil`, `none` when `Link == nil`. -/
structure Event where
  type : EvType
  ts : Int
  stkID : Nat
  stk : List Frame
  linkTs : Option Int
  deriving DecidableEq, Repr

/-- Record represents one entry in pprof-like profiles (source struct
`Record`: `stk []*trace.Frame`, `n uint64`, `time int64`). -/
structure Record where
  stk : List Frame
  n : Nat
  time : Int
  deriving DecidableEq, Repr

/-- Lookup in an association list modelling a Go map (first binding wins;
all the maps built below have unique keys). -/
def alookup {κ α : Type} [DecidableEq κ] : List (κ × α) → κ → Option α
  | [], _ => none
  | (k, v) :: rest, key => if key = k then some v else alookup rest key

/-- Go map read `prof[ev.StkID]`: a missing key yields the zero `Record`
(`nil` slice, `0`, `0`). -/
def lookupRec (m : List (Nat × Record)) (key : Nat) : Record :=
  (alookup m key).getD ⟨[], 0, 0⟩

/-- Go map write `prof[ev.StkID] = rec`: replace the binding in place, or
append a fresh binding. -/
def updateRec : List (Nat × Record) → Nat → Record → List (Nat × Record)
  | [], key, r => [(key, r)]
  | (k, v) :: rest, key, r =>
    if key = k then (key, r) :: rest else (k, v) :: updateRec rest key r

/-- The four analyses served by the tool: `pprofIO`, `pprofBlock`,
`pprofSyscall`, `pprofSched`. -/
inductive AnlKind where
  | io
  | block
  | syscall
  | sched
  deriving DecidableEq, Repr

/-- Per-analysis event-type test, read off the `continue` guards of the
four loops (`ev.Type != trace.EvGoBlockNet`, the `switch` of `pprofBlock`,
`ev.Type != trace.EvGoSysCall`, `ev.Type != trace.EvGoUnblock && ev.Type
!= trace.EvGoCreate`). -/
def evMatch : AnlKind → EvType → Bool
  | .io, t => t == .EvGoBlockNet
  | .block, t =>
    t == .EvGoBlockSend || t == .EvGoBlockRecv || t == .EvGoBlockSelect ||
      t == .EvGoBlockSync || t == .EvGoBlockCond
  | .syscall, t => t == .EvGoSysCall
  | .sched, t => t == .EvGoUnblock || t == .EvGoCreate

/-- The retention condition common to the four loops: the event survives
the `continue` guard iff its type matches and `ev.Link != nil` and
`ev.StkID != 0` and `len(ev.Stk) != 0`. -/
def retainedEv (k : AnlKind) (ev : Event) : Bool :=
  evMatch k ev.type && ev.linkTs.isSome && ev.stkID != 0 && ev.stk.length != 0

/-- Timestamp of the link event (`ev.Link.Ts`); only read under
`retainedEv`, which guarantees the link is present. -/
def linkTsOf (ev : Event) : Int :=
  ev.linkTs.getD 0

/-- Loop body applied to one retained event: `rec.stk = ev.Stk;
rec.n++; rec.time += ev.Link.Ts - ev.Ts`. -/
def recUpdate (r : Record) (ev : Event) : Record :=
  { stk := ev.stk, n := r.n + 1, time := r.time + (linkTsOf ev - ev.ts) }

/-- One iteration of an aggregation loop over one event. -/
def aggStep (k : AnlKind) (m : List (Nat × Record)) (ev : Event) :
    List (Nat × Record) :=
  if retainedEv k ev then
    updateRec m ev.stkID (recUpdate (lookupRec m ev.stkID) ev)
  else m

/-- The aggregation loop `for _, ev := range events { ... }`. -/
def aggEvents (k : AnlKind) (m : List (Nat × Record)) :
    List Event → List (Nat × Record)
  | [] => m
  | ev :: rest => aggEvents k (aggStep k m ev) rest

/-- Aggregation of a whole event sequence starting from the empty map
(`prof := make(map[uint64]Record)`). -/
def pprofAgg (k : AnlKind) (events : List Event) : List (Nat × Record) :=
  aggEvents k [] events

/-- Values of the record map, in one admissible Go map iteration order. -/
def recordsOf (m : List (Nat × Record)) : List Record :=
  m.map Prod.snd

/-- ValueType models `profile.ValueType` (`Type`, `Unit`). -/
structure ValueType where
  type : String
  unit : String
  deriving DecidableEq, Repr

/-- Function models `profile.Function` (fields the tool writes). -/
structure Function where
  id : Nat
  name : String
  systemName : String
  filename : String
  deriving DecidableEq, Repr

/-- Line models `profile.Line`; the `Function *Function` pointer is
modelled by the function value it points to. -/
structure Line where
  function : Function
  line : Int
  deriving DecidableEq, Repr

/-- Location models `profile.Location` (fields the tool writes). -/
structure Location where
  id : Nat
  address : Nat
  line : List Line
  deriving DecidableEq, Repr

/-- Sample models `profile.Sample` (`Value []int64`,
`Location []*Location`). -/
structure Sample where
  value : List Int
  location : List Location
  deriving DecidableEq, Repr

/-- Profile models `profile.Profile` (fields the tool writes). -/
structure Profile where
  periodType : ValueType
  period : Int
  sampleType : List ValueType
  function : List Function
  location : List Location
  sample : List Sample
  deriving DecidableEq, Repr

/-- Builder state while `buildProfile` runs: the profile under
construction plus the two deduplication maps `locs` (by `frame.PC`) and
`funcs` (by the string `frame.File+frame.Fn`). -/
structure BuildAcc where
  p : Profile
  locs : List (Nat × Location)
  funcs : List (String × Function)
  deriving DecidableEq, Repr

/-- The profile literal `buildProfile` starts from: period descriptor
`{trace, count}`, period 1, sample types `{contentions, count}` and
`{delay, nanoseconds}`, empty tables. -/
def initProfile : Profile :=
  { periodType := ⟨"trace", "count"⟩
    period := 1
    sampleType := [⟨"contentions", "count"⟩, ⟨"delay", "nanoseconds"⟩]
    function := []
    location := []
    sample := [] }

/-- Initial builder state: fresh profile, empty `locs` and `funcs`. -/
def initAcc : BuildAcc :=
  { p := initProfile, locs := [], funcs := [] }

/-- Body of the inner frame loop of `buildProfile`: resolve or create the
`Location` of one frame.  `loc := locs[frame.PC]`; if absent, resolve or
create the `Function` via key `frame.File+frame.Fn` (ID
`len(p.Function)+1`), then create the `Location` (ID `len(p.Location)+1`,
a single `Line`), registering both in the profile and the maps. -/
def buildFrame (acc : BuildAcc) (f : Frame) : BuildAcc × Location :=
  match alookup acc.locs f.pc with
  | some loc => (acc, loc)
  | none =>
    match alookup acc.funcs (f.file ++ f.fn) with
    | some fn =>
      let loc : Location := ⟨acc.p.location.length + 1, f.pc, [⟨fn, f.line⟩]⟩
      ({ p := { acc.p with location := acc.p.location ++ [loc] }
         locs := acc.locs ++ [(f.pc, loc)]
         funcs := acc.funcs }, loc)
    | none =>
      let fn : Function := ⟨acc.p.function.length + 1, f.fn, f.fn, f.file⟩
      let loc : Location := ⟨acc.p.location.length + 1, f.pc, [⟨fn, f.line⟩]⟩
      ({ p := { acc.p with
                  function := acc.p.function ++ [fn]
                  location := acc.p.location ++ [loc] }
         locs := acc.locs ++ [(f.pc, loc)]
         funcs := acc.funcs ++ [(f.file ++ f.fn, fn)] }, loc)

/-- The frame loop of `buildProfile`: walk `rec.stk`, accumulating the
resolved locations `sloc` in stack order. -/
def buildFrames : BuildAcc → List Frame → BuildAcc × List Location
  | acc, [] => (acc, [])
  | acc, f :: rest =>
    match buildFrame acc f with
    | (acc1, loc) =>
      match buildFrames acc1 rest with
      | (acc2, sloc) => (acc2, loc :: sloc)

/-- Body of the record loop of `buildProfile`: resolve the stack, then
append one `Sample` with `Value = []int64{int64(rec.n), rec.time}`. -/
def buildRecord (acc : BuildAcc) (rec : Record) : BuildAcc :=
  match buildFrames acc rec.stk with
  | (acc1, sloc) =>
    { acc1 with
        p := { acc1.p with
                 sample := acc1.p.sample ++
                   [⟨[Int.ofNat rec.n, rec.time], sloc⟩] } }

/-- The record loop `for _, rec := range prof { ... }`. -/
def buildRecords : BuildAcc → List Record → BuildAcc
  | acc, [] => acc
  | acc, rec :: rest => buildRecords (buildRecord acc rec) rest

/-- buildProfile, over the record map's values in a given iteration
order. -/
def buildProfile (recs : List Record) : Profile :=
  (buildRecords initAcc recs).p

/-- The common shape of the four entry points: they first call
`parseEvents()` and return its error unchanged on failure; on success the
aggregation loop runs and `buildProfile(prof)` is produced.  The
`prof.Write(w)` serialization boundary is external and not modelled. -/
def pprofOf (k : AnlKind) (parsed : Except String (List Event)) :
    Except String Profile :=
  match parsed with
  | .error e => .error e
  | .ok events => .ok (buildProfile (recordsOf (pprofAgg k events)))

/-- pprofIO generates the IO pprof-like profile (time spent in IO wait). -/
def pprofIO : Except String (List Event) → Except String Profile :=
  pprofOf .io

/-- pprofBlock generates the blocking pprof-like profile. -/
def pprofBlock : Except String (List Event) → Except String Profile :=
  pprofOf .block

/-- pprofSyscall generates the syscall pprof-like profile. -/
def pprofSyscall : Except String (List Event) → Except String Profile :=
  pprofOf .syscall

/-- pprofSched generates the scheduler-latency pprof-like profile. -/
def pprofSched : Except String (List Event) → Except String Profile :=
  pprofOf .sched

/- ### Specification-side definitions -/

/-- The per-analysis matching table of the specification (§4.1). -/
def specKinds : AnlKind → List EvType
  | .io => [.EvGoBlockNet]
  | .block => [.EvGoBlockSend, .EvGoBlockRecv, .EvGoBlockSelect,
               .EvGoBlockSync, .EvGoBlockCond]
  | .syscall => [.EvGoSysCall]
  | .sched => [.EvGoUnblock, .EvGoCreate]

/-- Retention as the specification words it: kind in the table row, link
non-null, stack id non-zero, stack non-empty. -/
def retainedSpec (k : AnlKind) (ev : Event) : Prop :=
  ev.type ∈ specKinds k ∧ ev.linkTs ≠ none ∧ ev.stkID ≠ 0 ∧ ev.stk ≠ []

instance (k : AnlKind) (ev : Event) : Decidable (retainedSpec k ev) := by
  unfold retainedSpec; infer_instance

/-- The retained events of a given stack identity, in order. -/
def filterEv (k : AnlKind) (sid : Nat) (evs : List Event) : List Event :=
  evs.filter (fun ev => retainedEv k ev && ev.stkID == sid)

/-- Projection of the aggregation loop onto one stack identity. -/
def recFold (k : AnlKind) (sid : Nat) (r : Record) : List Event → Record
  | [] => r
  | ev :: rest =>
    recFold k sid
      (if retainedEv k ev && ev.stkID == sid then recUpdate r ev else r) rest

/-- All frames of a record list, in processing order (records in order,
each stack frame-by-frame). -/
def allFrames (recs : List Record) : List Frame :=
  (recs.map Record.stk).flatten

/-- The function-deduplication key of a frame: the string concatenation
`frame.File + frame.Fn`. -/
def fkey (f : Frame) : String :=
  f.file ++ f.fn

/-- Keys of `l` in first-seen order, appended after the already-seen
`seen`; describes how a deduplication map's key set grows. -/
def addKeys {α β : Type} [DecidableEq β] (key : α → β) (seen : List β) :
    List α → List β
  | [] => seen
  | a :: rest =>
    if key a ∈ seen then addKeys key seen rest
    else addKeys key (seen ++ [key a]) rest

/-- The elements of `l` whose key is fresh (not in `seen` nor carried by
an earlier element of `l`): for each distinct new key, its first
carrier. -/
def freshBy {α β : Type} [DecidableEq β] (key : α → β) (seen : List β) :
    List α → List α
  | [] => []
  | a :: rest =>
    if key a ∈ seen then freshBy key seen rest
    else a :: freshBy key (seen ++ [key a]) rest

/-- Read one built `Location` back as the `(pc, file, name, line)` tuple
it encodes: its address, its single Line's function filename and name,
and its Line number. -/
def readLoc (loc : Location) : Option (Nat × String × String × Int) :=
  match loc.line with
  | [l] => some (loc.address, l.function.filename, l.function.name, l.line)
  | _ => none

/-- The read-back tuple a frame should reproduce. -/
def frameTuple (f : Frame) : Option (Nat × String × String × Int) :=
  some (f.pc, f.file, f.fn, f.line)

/-- Frame metadata is determined by the program counter across a frame
list. -/
def PcConsistent (F : List Frame) : Prop :=
  ∀ f ∈ F, ∀ g ∈ F, f.pc = g.pc →
    f.file = g.file ∧ f.fn = g.fn ∧ f.line = g.line

/-- The concatenated `file ++ fn` key determines the `(file, fn)` pair
across a frame list. -/
def ConcatInj (F : List Frame) : Prop :=
  ∀ f ∈ F, ∀ g ∈ F, f.file ++ f.fn = g.file ++ g.fn →
    f.file = g.file ∧ f.fn = g.fn

instance (F : List Frame) : Decidable (PcConsistent F) := by
  unfold PcConsistent; infer_instance

instance (F : List Frame) : Decidable (ConcatInj F) := by
  unfold ConcatInj; infer_instance

/- ### Aggregation lemmas -/

theorem alookup_updateRec (m : List (Nat × Record)) (k k' : Nat)
    (r : Record) :
    alookup (updateRec m k r) k' = if k' = k then some r else alookup m k' := by
  induction m with
  | nil =>
    by_cases h : k' = k <;> simp [updateRec, alookup, h]
  | cons kv rest ih =>
    obtain ⟨k0, v0⟩ := kv
    by_cases hk : k = k0
    · subst hk
      by_cases h : k' = k <;> simp [updateRec, alookup, h]
    · by_cases h : k' = k
      · subst h
        simp [updateRec, alookup, hk, ih, Ne.symm hk]
      · by_cases h0 : k' = k0 <;>
          simp [updateRec, alookup, hk, h0, ih, h, Ne.symm hk]

theorem lookupRec_aggStep (k : AnlKind) (m : List (Nat × Record))
    (ev : Event) (sid : Nat) :
    lookupRec (aggStep k m ev) sid =
      if retainedEv k ev && ev.stkID == sid then
        recUpdate (lookupRec m sid) ev
      else lookupRec m sid := by
  unfold aggStep
  by_cases hret : retainedEv k ev
  · by_cases hsid : ev.stkID = sid
    · subst hsid
      simp [hret, lookupRec, alookup_updateRec]
    · have : ¬ sid = ev.stkID := fun h => hsid h.symm
      simp [hret, lookupRec, alookup_updateRec, this, hsid]
  · simp [hret]

theorem lookupRec_aggEvents (k : AnlKind) (evs : List Event) :
    ∀ (m : List (Nat × Record)) (sid : Nat),
      lookupRec (aggEvents k m evs) sid = recFold k sid (lookupRec m sid) evs := by
  induction evs with
  | nil => intro m sid; simp [aggEvents, recFold]
  | cons ev rest ih =>
    intro m sid
    rw [aggEvents, recFold, ih, lookupRec_aggStep]

theorem recFold_n (k : AnlKind) (sid : Nat) (evs : List Event) :
    ∀ r : Record, (recFold k sid r evs).n = r.n + (filterEv k sid evs).length := by
  induction evs with
  | nil => intro r; simp [recFold, filterEv]
  | cons ev rest ih =>
    intro r
    by_cases h : retainedEv k ev && ev.stkID == sid
    · simp only [recFold, h, if_pos]
      rw [ih]
      simp [filterEv, h, recUpdate, List.filter_cons]
      omega
    · simp only [recFold, h, if_neg]
      rw [ih]
      simp [filterEv, List.filter_cons, h]

theorem recFold_time (k : AnlKind) (sid : Nat) (evs : List Event) :
    ∀ r : Record,
      (recFold k sid r evs).time =
        r.time + ((filterEv k sid evs).map (fun ev => linkTsOf ev - ev.ts)).sum := by
  induction evs with
  | nil => intro r; simp [recFold, filterEv]
  | cons ev rest ih =>
    intro r
    by_cases h : retainedEv k ev && ev.stkID == sid
    · simp only [recFold, h, if_pos]
      rw [ih]
      simp [filterEv, h, recUpdate, List.filter_cons]
      ring
    · simp only [recFold, h, if_neg]
      rw [ih]
      simp [filterEv, List.filter_cons, h]

theorem recFold_stk (k : AnlKind) (sid : Nat) (evs : List Event) :
    ∀ r : Record,
      (recFold k sid r evs).stk =
        (((filterEv k sid evs).map Event.stk).getLast?).getD r.stk := by
  induction evs with
  | nil => intro r; simp [recFold, filterEv]
  | cons ev rest ih =>
    intro r
    by_cases h : retainedEv k ev && ev.stkID == sid
    · simp only [recFold, h, if_pos]
      rw [ih]
      simp only [filterEv, List.filter_cons, h, if_pos, List.map_cons]
      cases hrest : (List.filter (fun ev => retainedEv k ev && ev.stkID == sid) rest).map Event.stk with
      | nil => simp [recUpdate]
      | cons x xs =>
        simp [List.getLast?_eq_getLast (x :: xs) (List.cons_ne_nil x xs)]
    · simp only [recFold, h, if_neg]
      rw [ih]
      simp [filterEv, List.filter_cons, h]

theorem alookup_aggStep_isSome (k : AnlKind) (m : List (Nat × Record))
    (ev : Event) (sid : Nat) :
    (alookup (aggStep k m ev) sid).isSome =
      ((alookup m sid).isSome || (retainedEv k ev && ev.stkID == sid)) := by
  unfold aggStep
  by_cases hret : retainedEv k ev
  · by_cases hsid : ev.stkID = sid
    · subst hsid
      simp [hret, alookup_updateRec]
    · have : ¬ sid = ev.stkID := fun h => hsid h.symm
      simp [hret, alookup_updateRec, this, (by simpa using hsid : ¬ ev.stkID = sid)]
  · simp [hret]

theorem alookup_aggEvents_isSome (k : AnlKind) (evs : List Event) :
    ∀ (m : List (Nat × Record)) (sid : Nat),
      (alookup (aggEvents k m evs) sid).isSome =
        ((alookup m sid).isSome ||
          evs.any (fun ev => retainedEv k ev && ev.stkID == sid)) := by
  induction evs with
  | nil => intro m sid; simp [aggEvents]
  | cons ev rest ih =>
    intro m sid
    rw [aggEvents, ih, alookup_aggStep_isSome]
    simp [List.any_cons, Bool.or_assoc]

theorem updateRec_keys (m : List (Nat × Record)) (k : Nat) (r : Record) :
    (updateRec m k r).map Prod.fst =
      if k ∈ m.map Prod.fst then m.map Prod.fst else m.map Prod.fst ++ [k] := by
  induction m with
  | nil => simp [updateRec]
  | cons kv rest ih =>
    obtain ⟨k0, v0⟩ := kv
    by_cases hk : k = k0
    · subst hk; simp [updateRec]
    · simp [updateRec, hk, ih, Ne.symm hk]
      by_cases hmem : k ∈ rest.map Prod.fst <;> simp [hmem, hk]

theorem aggStep_keys_nodup (k : AnlKind) (m : List (Nat × Record))
    (ev : Event) (h : (m.map Prod.fst).Nodup) :
    ((aggStep k m ev).map Prod.fst).Nodup := by
  unfold aggStep
  by_cases hret : retainedEv k ev
  · rw [if_pos hret, updateRec_keys]
    by_cases hmem : ev.stkID ∈ m.map Prod.fst
    · rwa [if_pos hmem]
    · rw [if_neg hmem]
      refine List.Nodup.append h (List.nodup_singleton _) ?_
      intro a ha hb
      rw [List.mem_singleton] at hb
      exact hmem (hb ▸ ha)
  · rwa [if_neg hret]

theorem aggEvents_of_no_retained (k : AnlKind) (evs : List Event) :
    ∀ m : List (Nat × Record), (∀ ev ∈ evs, retainedEv k ev = false) →
      aggEvents k m evs = m := by
  induction evs with
  | nil => intro m _; rfl
  | cons ev rest ih =>
    intro m h
    rw [aggEvents]
    have hstep : aggStep k m ev = m := by
      unfold aggStep
      rw [h ev (by simp)]
      rfl
    rw [hstep]
    exact ih m (fun e he => h e (by simp [he]))

theorem aggEvents_keys_nodup (k : AnlKind) (evs : List Event) :
    ∀ m : List (Nat × Record), (m.map Prod.fst).Nodup →
      ((aggEvents k m evs).map Prod.fst).Nodup := by
  induction evs with
  | nil => intro m h; simpa [aggEvents] using h
  | cons ev rest ih =>
    intro m h
    exact ih _ (aggStep_keys_nodup k m ev h)

/- ### Builder structural lemmas -/

theorem alookup_append {κ α : Type} [DecidableEq κ] (l1 l2 : List (κ × α))
    (k : κ) :
    alookup (l1 ++ l2) k =
      match alookup l1 k with
      | some v => some v
      | none => alookup l2 k := by
  induction l1 with
  | nil => simp [alookup]
  | cons kv rest ih =>
    obtain ⟨k0, v0⟩ := kv
    by_cases h : k = k0 <;> simp [alookup, h, ih]

theorem alookup_eq_none_iff {κ α : Type} [DecidableEq κ]
    (m : List (κ × α)) (k : κ) :
    alookup m k = none ↔ k ∉ m.map Prod.fst := by
  induction m with
  | nil => simp [alookup]
  | cons kv rest ih =>
    obtain ⟨k0, v0⟩ := kv
    by_cases h : k = k0 <;> simp [alookup, h, ih]

theorem alookup_isSome_iff {κ α : Type} [DecidableEq κ]
    (m : List (κ × α)) (k : κ) :
    (alookup m k).isSome ↔ k ∈ m.map Prod.fst := by
  rw [Option.isSome_iff_ne_none, not_iff_comm, ← alookup_eq_none_iff]

theorem buildFrames_cons_fst (acc : BuildAcc) (f : Frame)
    (rest : List Frame) :
    (buildFrames acc (f :: rest)).1 = (buildFrames (buildFrame acc f).1 rest).1 := by
  rw [buildFrames]

theorem buildFrames_cons_snd (acc : BuildAcc) (f : Frame)
    (rest : List Frame) :
    (buildFrames acc (f :: rest)).2 =
      (buildFrame acc f).2 :: (buildFrames (buildFrame acc f).1 rest).2 := by
  rw [buildFrames]

theorem buildRecord_eq (acc : BuildAcc) (rec : Record) :
    buildRecord acc rec =
      { (buildFrames acc rec.stk).1 with
          p := { ((buildFrames acc rec.stk).1).p with
                   sample := ((buildFrames acc rec.stk).1).p.sample ++
                     [⟨[Int.ofNat rec.n, rec.time],
                       (buildFrames acc rec.stk).2⟩] } } := by
  unfold buildRecord
  rcases h : buildFrames acc rec.stk with ⟨acc1, sloc⟩
  rfl

/-- What one `buildFrame` step does to the profile and the maps, split by
the three source paths (pc hit; pc miss, function hit; both miss). -/
theorem buildFrame_char (acc : BuildAcc) (f : Frame) :
    (∃ loc, alookup acc.locs f.pc = some loc ∧ buildFrame acc f = (acc, loc)) ∨
    (alookup acc.locs f.pc = none ∧
      ∃ fn, alookup acc.funcs (f.file ++ f.fn) = some fn ∧
        buildFrame acc f =
          (let loc : Location :=
            ⟨acc.p.location.length + 1, f.pc, [⟨fn, f.line⟩]⟩
          ({ p := { acc.p with location := acc.p.location ++ [loc] }
             locs := acc.locs ++ [(f.pc, loc)]
             funcs := acc.funcs }, loc))) ∨
    (alookup acc.locs f.pc = none ∧
      alookup acc.funcs (f.file ++ f.fn) = none ∧
      buildFrame acc f =
        (let fn : Function := ⟨acc.p.function.length + 1, f.fn, f.fn, f.file⟩
         let loc : Location :=
           ⟨acc.p.location.length + 1, f.pc, [⟨fn, f.line⟩]⟩
         ({ p := { acc.p with
                     function := acc.p.function ++ [fn]
                     location := acc.p.location ++ [loc] }
            locs := acc.locs ++ [(f.pc, loc)]
            funcs := acc.funcs ++ [(f.file ++ f.fn, fn)] }, loc))) := by
  unfold buildFrame
  cases h1 : alookup acc.locs f.pc with
  | some loc => exact Or.inl ⟨loc, rfl, rfl⟩
  | none =>
    cases h2 : alookup acc.funcs (f.file ++ f.fn) with
    | some fn => exact Or.inr (Or.inl ⟨rfl, fn, rfl, rfl⟩)
    | none => exact Or.inr (Or.inr ⟨rfl, rfl, rfl⟩)

theorem buildFrame_sample (acc : BuildAcc) (f : Frame) :
    ((buildFrame acc f).1).p.sample = acc.p.sample := by
  rcases buildFrame_char acc f with ⟨loc, _, h⟩ | ⟨_, fn, _, h⟩ | ⟨_, _, h⟩ <;>
    rw [h]

theorem buildFrame_header (acc : BuildAcc) (f : Frame) :
    ((buildFrame acc f).1).p.periodType = acc.p.periodType ∧
    ((buildFrame acc f).1).p.period = acc.p.period ∧
    ((buildFrame acc f).1).p.sampleType = acc.p.sampleType := by
  rcases buildFrame_char acc f with ⟨loc, _, h⟩ | ⟨_, fn, _, h⟩ | ⟨_, _, h⟩ <;>
    rw [h] <;> exact ⟨rfl, rfl, rfl⟩

theorem buildFrames_sample (fs : List Frame) :
    ∀ acc : BuildAcc, ((buildFrames acc fs).1).p.sample = acc.p.sample := by
  induction fs with
  | nil => intro acc; rfl
  | cons f rest ih =>
    intro acc
    rw [buildFrames_cons_fst, ih, buildFrame_sample]

theorem buildFrames_header (fs : List Frame) :
    ∀ acc : BuildAcc,
      ((buildFrames acc fs).1).p.periodType = acc.p.periodType ∧
      ((buildFrames acc fs).1).p.period = acc.p.period ∧
      ((buildFrames acc fs).1).p.sampleType = acc.p.sampleType := by
  induction fs with
  | nil => intro acc; exact ⟨rfl, rfl, rfl⟩
  | cons f rest ih =>
    intro acc
    rw [buildFrames_cons_fst]
    obtain ⟨h1, h2, h3⟩ := ih (buildFrame acc f).1
    obtain ⟨g1, g2, g3⟩ := buildFrame_header acc f
    exact ⟨h1.trans g1, h2.trans g2, h3.trans g3⟩

theorem buildRecords_header (recs : List Record) :
    ∀ acc : BuildAcc,
      ((buildRecords acc recs).p).periodType = acc.p.periodType ∧
      ((buildRecords acc recs).p).period = acc.p.period ∧
      ((buildRecords acc recs).p).sampleType = acc.p.sampleType := by
  induction recs with
  | nil => intro acc; exact ⟨rfl, rfl, rfl⟩
  | cons rec rest ih =>
    intro acc
    rw [buildRecords]
    obtain ⟨h1, h2, h3⟩ := ih (buildRecord acc rec)
    obtain ⟨g1, g2, g3⟩ := buildFrames_header rec.stk acc
    rw [buildRecord_eq] at h1 h2 h3
    simp only at h1 h2 h3
    exact ⟨h1.trans g1, h2.trans g2, h3.trans g3⟩

/- ### Dense ID assignment -/

/-- Invariant: function and location IDs are `1, 2, ...` in list order. -/
def IdsDense (acc : BuildAcc) : Prop :=
  acc.p.function.map (·.id) = List.range' 1 acc.p.function.length ∧
  acc.p.location.map (·.id) = List.range' 1 acc.p.location.length

theorem buildFrame_idsDense (acc : BuildAcc) (f : Frame)
    (h : IdsDense acc) : IdsDense (buildFrame acc f).1 := by
  obtain ⟨hf, hl⟩ := h
  rcases buildFrame_char acc f with ⟨loc, _, heq⟩ | ⟨_, fn, _, heq⟩ | ⟨_, _, heq⟩ <;>
    rw [heq]
  · exact ⟨hf, hl⟩
  · refine ⟨hf, ?_⟩
    simp [List.range'_1_concat, hl, Nat.add_comm]
  · constructor
    · simp [List.range'_1_concat, hf, Nat.add_comm]
    · simp [List.range'_1_concat, hl, Nat.add_comm]

theorem buildFrames_idsDense (fs : List Frame) :
    ∀ acc : BuildAcc, IdsDense acc → IdsDense (buildFrames acc fs).1 := by
  induction fs with
  | nil => intro acc h; exact h
  | cons f rest ih =>
    intro acc h
    rw [buildFrames_cons_fst]
    exact ih _ (buildFrame_idsDense acc f h)

theorem buildRecord_function (acc : BuildAcc) (rec : Record) :
    (buildRecord acc rec).p.function = ((buildFrames acc rec.stk).1).p.function := by
  rw [buildRecord_eq]

theorem buildRecord_location (acc : BuildAcc) (rec : Record) :
    (buildRecord acc rec).p.location = ((buildFrames acc rec.stk).1).p.location := by
  rw [buildRecord_eq]

theorem buildRecord_locs (acc : BuildAcc) (rec : Record) :
    (buildRecord acc rec).locs = ((buildFrames acc rec.stk).1).locs := by
  rw [buildRecord_eq]

theorem buildRecord_funcs (acc : BuildAcc) (rec : Record) :
    (buildRecord acc rec).funcs = ((buildFrames acc rec.stk).1).funcs := by
  rw [buildRecord_eq]

theorem buildRecord_idsDense (acc : BuildAcc) (rec : Record)
    (h : IdsDense acc) : IdsDense (buildRecord acc rec) := by
  have := buildFrames_idsDense rec.stk acc h
  unfold IdsDense at this ⊢
  rwa [buildRecord_function, buildRecord_location]

theorem buildRecords_idsDense (recs : List Record) :
    ∀ acc : BuildAcc, IdsDense acc → IdsDense (buildRecords acc recs) := by
  induction recs with
  | nil => intro acc h; exact h
  | cons rec rest ih =>
    intro acc h
    rw [buildRecords]
    exact ih _ (buildRecord_idsDense acc rec h)

/- ### Deduplication-key bookkeeping -/

theorem addKeys_append {α β : Type} [DecidableEq β] (key : α → β)
    (l1 l2 : List α) :
    ∀ seen : List β,
      addKeys key seen (l1 ++ l2) = addKeys key (addKeys key seen l1) l2 := by
  induction l1 with
  | nil => intro seen; simp [addKeys]
  | cons a rest ih =>
    intro seen
    by_cases h : key a ∈ seen <;> simp [addKeys, h, ih]

theorem freshBy_append {α β : Type} [DecidableEq β] (key : α → β)
    (l1 l2 : List α) :
    ∀ seen : List β,
      freshBy key seen (l1 ++ l2) =
        freshBy key seen l1 ++ freshBy key (addKeys key seen l1) l2 := by
  induction l1 with
  | nil => intro seen; simp [freshBy, addKeys]
  | cons a rest ih =>
    intro seen
    by_cases h : key a ∈ seen <;> simp [freshBy, addKeys, h, ih]

theorem mem_addKeys {α β : Type} [DecidableEq β] (key : α → β) (l : List α) :
    ∀ (seen : List β) (b : β),
      b ∈ addKeys key seen l ↔ b ∈ seen ∨ b ∈ l.map key := by
  induction l with
  | nil => intro seen b; simp [addKeys]
  | cons a rest ih =>
    intro seen b
    by_cases h : key a ∈ seen
    · rw [addKeys, if_pos h, ih]
      constructor
      · rintro (hs | hr)
        · exact Or.inl hs
        · exact Or.inr (by simp [hr])
      · rintro (hs | hr)
        · exact Or.inl hs
        · rcases (by simpa using hr : b = key a ∨ b ∈ rest.map key) with heq | hm
          · exact Or.inl (heq ▸ h)
          · exact Or.inr hm
    · rw [addKeys, if_neg h, ih]
      simp [or_assoc]

theorem addKeys_nodup {α β : Type} [DecidableEq β] (key : α → β) (l : List α) :
    ∀ seen : List β, seen.Nodup → (addKeys key seen l).Nodup := by
  induction l with
  | nil => intro seen h; exact h
  | cons a rest ih =>
    intro seen h
    by_cases hmem : key a ∈ seen
    · rw [addKeys, if_pos hmem]; exact ih seen h
    · rw [addKeys, if_neg hmem]
      refine ih _ (List.Nodup.append h (List.nodup_singleton _) ?_)
      intro b hb hb'
      rw [List.mem_singleton] at hb'
      exact hmem (hb' ▸ hb)

theorem addKeys_length {α β : Type} [DecidableEq β] (key : α → β)
    (l : List α) :
    (addKeys key [] l).length = ((l.map key).dedup).length := by
  have hnd : (addKeys key [] l).Nodup := addKeys_nodup key l [] List.nodup_nil
  have hperm : List.Perm (addKeys key [] l) ((l.map key).dedup) := by
    rw [List.perm_ext_iff_of_nodup hnd (List.nodup_dedup _)]
    intro b
    rw [mem_addKeys, List.mem_dedup]
    simp
  exact hperm.length_eq

theorem buildFrame_locs_keys (acc : BuildAcc) (f : Frame) :
    (buildFrame acc f).1.locs.map Prod.fst =
      if f.pc ∈ acc.locs.map Prod.fst then acc.locs.map Prod.fst
      else acc.locs.map Prod.fst ++ [f.pc] := by
  rcases buildFrame_char acc f with ⟨loc, hlk, heq⟩ | ⟨hlk, fn, _, heq⟩ |
      ⟨hlk, _, heq⟩ <;> rw [heq]
  · have hmem : f.pc ∈ acc.locs.map Prod.fst := by
      rw [← alookup_isSome_iff, hlk]; rfl
    rw [if_pos hmem]
  · rw [if_neg ((alookup_eq_none_iff _ _).mp hlk)]
    simp
  · rw [if_neg ((alookup_eq_none_iff _ _).mp hlk)]
    simp

theorem buildFrame_funcs_keys (acc : BuildAcc) (f : Frame) :
    (buildFrame acc f).1.funcs.map Prod.fst =
      if f.pc ∈ acc.locs.map Prod.fst then acc.funcs.map Prod.fst
      else if fkey f ∈ acc.funcs.map Prod.fst then acc.funcs.map Prod.fst
      else acc.funcs.map Prod.fst ++ [fkey f] := by
  simp only [fkey]
  rcases buildFrame_char acc f with ⟨loc, hlk, heq⟩ | ⟨hlk, fn, hfk, heq⟩ |
      ⟨hlk, hfk, heq⟩ <;> rw [heq]
  · have hmem : f.pc ∈ acc.locs.map Prod.fst := by
      rw [← alookup_isSome_iff, hlk]; rfl
    rw [if_pos hmem]
  · have hfmem : f.file ++ f.fn ∈ acc.funcs.map Prod.fst := by
      rw [← alookup_isSome_iff, hfk]; rfl
    rw [if_neg ((alookup_eq_none_iff _ _).mp hlk), if_pos hfmem]
  · rw [if_neg ((alookup_eq_none_iff _ _).mp hlk),
      if_neg ((alookup_eq_none_iff _ _).mp hfk)]
    simp

theorem buildFrames_keys (fs : List Frame) :
    ∀ acc : BuildAcc,
      (buildFrames acc fs).1.locs.map Prod.fst =
        addKeys Frame.pc (acc.locs.map Prod.fst) fs ∧
      (buildFrames acc fs).1.funcs.map Prod.fst =
        addKeys fkey (acc.funcs.map Prod.fst)
          (freshBy Frame.pc (acc.locs.map Prod.fst) fs) := by
  induction fs with
  | nil => intro acc; exact ⟨rfl, rfl⟩
  | cons f rest ih =>
    intro acc
    rw [buildFrames_cons_fst]
    obtain ⟨ihl, ihf⟩ := ih (buildFrame acc f).1
    by_cases hmem : f.pc ∈ acc.locs.map Prod.fst
    · constructor
      · rw [ihl, buildFrame_locs_keys, if_pos hmem, addKeys, if_pos hmem]
      · rw [ihf, buildFrame_funcs_keys, if_pos hmem, buildFrame_locs_keys,
          if_pos hmem, freshBy, if_pos hmem]
    · constructor
      · rw [ihl, buildFrame_locs_keys, if_neg hmem, addKeys, if_neg hmem]
      · rw [ihf, buildFrame_funcs_keys, if_neg hmem, buildFrame_locs_keys,
          if_neg hmem, freshBy, if_neg hmem]
        by_cases hfk : fkey f ∈ acc.funcs.map Prod.fst
        · rw [if_pos hfk, addKeys, if_pos hfk]
        · rw [if_neg hfk, addKeys, if_neg hfk]

theorem buildRecords_keys (recs : List Record) :
    ∀ acc : BuildAcc,
      (buildRecords acc recs).locs.map Prod.fst =
        addKeys Frame.pc (acc.locs.map Prod.fst) (allFrames recs) ∧
      (buildRecords acc recs).funcs.map Prod.fst =
        addKeys fkey (acc.funcs.map Prod.fst)
          (freshBy Frame.pc (acc.locs.map Prod.fst) (allFrames recs)) := by
  induction recs with
  | nil => intro acc; exact ⟨rfl, rfl⟩
  | cons rec rest ih =>
    intro acc
    rw [buildRecords]
    obtain ⟨ihl, ihf⟩ := ih (buildRecord acc rec)
    obtain ⟨hl, hf⟩ := buildFrames_keys rec.stk acc
    have hall : allFrames (rec :: rest) = rec.stk ++ allFrames rest := by
      simp [allFrames]
    constructor
    · rw [ihl, buildRecord_locs, hl, hall, addKeys_append]
    · rw [ihf, buildRecord_funcs, hf, buildRecord_locs, hl, hall,
        freshBy_append, addKeys_append]

/- ### Per-build counts -/

/-- Invariant: the profile's tables and the deduplication maps stay in
step. -/
def MapsSync (acc : BuildAcc) : Prop :=
  acc.p.location.length = acc.locs.length ∧
  acc.p.function.length = acc.funcs.length

theorem buildFrame_mapsSync (acc : BuildAcc) (f : Frame) (h : MapsSync acc) :
    MapsSync (buildFrame acc f).1 := by
  obtain ⟨h1, h2⟩ := h
  rcases buildFrame_char acc f with ⟨loc, _, heq⟩ | ⟨_, fn, _, heq⟩ |
      ⟨_, _, heq⟩ <;> rw [heq] <;> constructor <;> simp [h1, h2]

theorem buildFrames_mapsSync (fs : List Frame) :
    ∀ acc : BuildAcc, MapsSync acc → MapsSync (buildFrames acc fs).1 := by
  induction fs with
  | nil => intro acc h; exact h
  | cons f rest ih =>
    intro acc h
    rw [buildFrames_cons_fst]
    exact ih _ (buildFrame_mapsSync acc f h)

theorem buildRecords_mapsSync (recs : List Record) :
    ∀ acc : BuildAcc, MapsSync acc → MapsSync (buildRecords acc recs) := by
  induction recs with
  | nil => intro acc h; exact h
  | cons rec rest ih =>
    intro acc h
    rw [buildRecords]
    refine ih _ ?_
    have := buildFrames_mapsSync rec.stk acc h
    unfold MapsSync at this ⊢
    rwa [buildRecord_location, buildRecord_locs, buildRecord_function,
      buildRecord_funcs]

theorem buildRecords_sample_values (recs : List Record) :
    ∀ acc : BuildAcc,
      (buildRecords acc recs).p.sample.map Sample.value =
        acc.p.sample.map Sample.value ++
          recs.map (fun rec => [Int.ofNat rec.n, rec.time]) := by
  induction recs with
  | nil => intro acc; simp [buildRecords]
  | cons rec rest ih =>
    intro acc
    rw [buildRecords, ih, buildRecord_eq]
    simp [buildFrames_sample]

/- ### Round-trip invariants -/

/-- Every location registered in the `locs` map reads back as the tuple
of some already-processed frame with that pc. -/
def LocsOk (F : List Frame) (locs : List (Nat × Location)) : Prop :=
  ∀ (pc : Nat) (loc : Location), alookup locs pc = some loc →
    ∃ f, f ∈ F ∧ f.pc = pc ∧ readLoc loc = frameTuple f

/-- Every function registered in the `funcs` map carries the file and
name of some already-processed frame with that concatenated key. -/
def FuncsOk (F : List Frame) (funcs : List (String × Function)) : Prop :=
  ∀ (s : String) (fn : Function), alookup funcs s = some fn →
    ∃ f, f ∈ F ∧ s = f.file ++ f.fn ∧ fn.filename = f.file ∧ fn.name = f.fn

theorem alookup_snoc {κ α : Type} [DecidableEq κ] (m : List (κ × α))
    (k0 : κ) (v0 : α) (k : κ) :
    alookup (m ++ [(k0, v0)]) k =
      match alookup m k with
      | some v => some v
      | none => if k = k0 then some v0 else none := by
  rw [alookup_append]
  cases alookup m k <;> simp [alookup]

theorem LocsOk_snoc {F : List Frame} {locs : List (Nat × Location)}
    (h : LocsOk F locs) {f : Frame} (hf : f ∈ F) {loc : Location}
    (hread : readLoc loc = frameTuple f) :
    LocsOk F (locs ++ [(f.pc, loc)]) := by
  intro pc loc' hlk
  rw [alookup_snoc] at hlk
  cases hold : alookup locs pc with
  | some v =>
    rw [hold] at hlk
    cases hlk
    exact h pc loc' hold
  | none =>
    rw [hold] at hlk
    by_cases hpc : pc = f.pc
    · rw [if_pos hpc] at hlk
      cases hlk
      exact ⟨f, hf, hpc.symm, hread⟩
    · rw [if_neg hpc] at hlk
      cases hlk

theorem FuncsOk_snoc {F : List Frame} {funcs : List (String × Function)}
    (h : FuncsOk F funcs) {f : Frame} (hf : f ∈ F) {fn : Function}
    (hfile : fn.filename = f.file) (hname : fn.name = f.fn) :
    FuncsOk F (funcs ++ [(f.file ++ f.fn, fn)]) := by
  intro s fn' hlk
  rw [alookup_snoc] at hlk
  cases hold : alookup funcs s with
  | some v =>
    rw [hold] at hlk
    cases hlk
    exact h s fn' hold
  | none =>
    rw [hold] at hlk
    by_cases hs : s = f.file ++ f.fn
    · rw [if_pos hs] at hlk
      cases hlk
      exact ⟨f, hf, hs, hfile, hname⟩
    · rw [if_neg hs] at hlk
      cases hlk

theorem buildFrame_readLoc {F : List Frame} (acc : BuildAcc) (f : Frame)
    (hpcC : PcConsistent F) (hcc : ConcatInj F)
    (hL : LocsOk F acc.locs) (hFn : FuncsOk F acc.funcs) (hf : f ∈ F) :
    LocsOk F (buildFrame acc f).1.locs ∧
    FuncsOk F (buildFrame acc f).1.funcs ∧
    readLoc (buildFrame acc f).2 = frameTuple f := by
  rcases buildFrame_char acc f with ⟨loc, hlk, heq⟩ | ⟨hlk, fn, hfk, heq⟩ |
      ⟨hlk, hfk, heq⟩ <;> rw [heq]
  · refine ⟨hL, hFn, ?_⟩
    obtain ⟨g, hgF, hgpc, hread⟩ := hL f.pc loc hlk
    obtain ⟨h1, h2, h3⟩ := hpcC g hgF f hf hgpc
    rw [hread]
    simp [frameTuple, h1, h2, h3, hgpc]
  · obtain ⟨g, hgF, hgkey, hgfile, hgname⟩ := hFn (f.file ++ f.fn) fn hfk
    obtain ⟨h1, h2⟩ := hcc g hgF f hf hgkey.symm
    have hread : readLoc ⟨acc.p.location.length + 1, f.pc, [⟨fn, f.line⟩]⟩ =
        frameTuple f := by
      simp [readLoc, frameTuple, hgfile, hgname, h1, h2]
    exact ⟨LocsOk_snoc hL hf hread, hFn, hread⟩
  · have hread : readLoc ⟨acc.p.location.length + 1, f.pc,
        [⟨⟨acc.p.function.length + 1, f.fn, f.fn, f.file⟩, f.line⟩]⟩ =
        frameTuple f := by
      simp [readLoc, frameTuple]
    refine ⟨LocsOk_snoc hL hf hread, FuncsOk_snoc hFn hf rfl rfl, hread⟩

theorem buildFrames_readLoc {F : List Frame} (hpcC : PcConsistent F)
    (hcc : ConcatInj F) (fs : List Frame) :
    ∀ acc : BuildAcc, (∀ f ∈ fs, f ∈ F) →
      LocsOk F acc.locs → FuncsOk F acc.funcs →
      LocsOk F (buildFrames acc fs).1.locs ∧
      FuncsOk F (buildFrames acc fs).1.funcs ∧
      (buildFrames acc fs).2.map readLoc = fs.map frameTuple := by
  induction fs with
  | nil => intro acc _ hL hFn; exact ⟨hL, hFn, rfl⟩
  | cons f rest ih =>
    intro acc hmem hL hFn
    obtain ⟨hL1, hF1, hread⟩ :=
      buildFrame_readLoc acc f hpcC hcc hL hFn (hmem f (by simp))
    obtain ⟨hL2, hF2, hmap⟩ :=
      ih (buildFrame acc f).1 (fun g hg => hmem g (by simp [hg])) hL1 hF1
    refine ⟨?_, ?_, ?_⟩
    · rwa [buildFrames_cons_fst]
    · rwa [buildFrames_cons_fst]
    · rw [buildFrames_cons_snd]
      simp only [List.map_cons, hread, hmap]

theorem buildRecords_readLoc {F : List Frame} (hpcC : PcConsistent F)
    (hcc : ConcatInj F) (recs : List Record) :
    ∀ acc : BuildAcc, (∀ r ∈ recs, ∀ f ∈ r.stk, f ∈ F) →
      LocsOk F acc.locs → FuncsOk F acc.funcs →
      (buildRecords acc recs).p.sample.map (fun s => s.location.map readLoc) =
        acc.p.sample.map (fun s => s.location.map readLoc) ++
          recs.map (fun r => r.stk.map frameTuple) := by
  induction recs with
  | nil => intro acc _ _ _; simp [buildRecords]
  | cons rec rest ih =>
    intro acc hmem hL hFn
    obtain ⟨hL1, hF1, hmap⟩ :=
      buildFrames_readLoc hpcC hcc rec.stk acc
        (fun f hf => hmem rec (by simp) f hf) hL hFn
    rw [buildRecords]
    rw [ih (buildRecord acc rec)
      (fun r hr f hf => hmem r (by simp [hr]) f hf)
      (by rwa [buildRecord_locs]) (by rwa [buildRecord_funcs])]
    rw [buildRecord_eq]
    simp only [List.map_append, buildFrames_sample, List.map_cons,
      List.map_nil, List.append_assoc, List.singleton_append, hmap]

theorem mem_allFrames {recs : List Record} {r : Record} {f : Frame}
    (hr : r ∈ recs) (hf : f ∈ r.stk) : f ∈ allFrames recs := by
  unfold allFrames
  rw [List.mem_flatten]
  exact ⟨r.stk, List.mem_map_of_mem Record.stk hr, hf⟩

theorem buildProfile_roundtrip_aux (recs : List Record)
    (hpcC : PcConsistent (allFrames recs))
    (hcc : ConcatInj (allFrames recs)) :
    (buildProfile recs).sample.map (fun s => s.location.map readLoc) =
      recs.map (fun r => r.stk.map frameTuple) := by
  unfold buildProfile
  rw [buildRecords_readLoc hpcC hcc recs initAcc
    (fun r hr f hf => mem_allFrames hr hf)
    (fun pc loc h => by cases h)
    (fun s fn h => by cases h)]
  rfl

/- ### Claim C1 -/

/-- C1: for every analysis kind, an event is retained for aggregation iff
its kind lies in that analysis's matching set, its link is non-null, its
stack id is non-zero, and its stack is non-empty; an event failing any of
these conditions leaves the record map untouched (contributes to zero
Records), while a retained event increments its identity's count. -/
theorem filtering_exact (k : AnlKind) (m : List (Nat × Record)) (ev : Event) :
    (retainedEv k ev = true ↔ retainedSpec k ev) ∧
    (retainedEv k ev = false → aggStep k m ev = m) ∧
    (retainedEv k ev = true →
      (lookupRec (aggStep k m ev) ev.stkID).n = (lookupRec m ev.stkID).n + 1) := by
  refine ⟨?_, ?_, ?_⟩
  · cases k <;>
      simp [retainedEv, retainedSpec, evMatch, specKinds,
        Option.isSome_iff_ne_none, List.length_eq_zero, and_assoc]
    intros
    tauto
  · intro h
    unfold aggStep
    rw [h]
    rfl
  · intro h
    rw [lookupRec_aggStep]
    simp [h, recUpdate]

def w1Stk : List Frame := [⟨1, "f", "a.go", 10⟩]

def w1RetEv : Event := ⟨.EvGoBlockNet, 0, 1, w1Stk, some 5⟩

def w1BadEv : Event := ⟨.EvGoBlockNet, 0, 0, w1Stk, some 5⟩

/-- Witness for C1 at concrete events: a retained block-on-network event
increments the count of its identity, and one with `stackID = 0`
contributes nothing. -/
theorem filtering_exact_witness :
    (retainedEv AnlKind.io w1RetEv = true ↔ retainedSpec AnlKind.io w1RetEv) ∧
    aggStep AnlKind.io [] w1BadEv = [] ∧
    (lookupRec (aggStep AnlKind.io [] w1RetEv) w1RetEv.stkID).n =
      (lookupRec ([] : List (Nat × Record)) w1RetEv.stkID).n + 1 :=
  ⟨(filtering_exact AnlKind.io [] w1RetEv).1,
   (filtering_exact AnlKind.io [] w1BadEv).2.1 (by decide),
   (filtering_exact AnlKind.io [] w1RetEv).2.2 (by decide)⟩

/- ### Claim C2 -/

/-- C2: aggregation produces one record per distinct (necessarily
non-zero) stack identity among retained events — the map's keys are
unique and a key is present iff some retained event carries it — and the
record of an identity counts exactly its retained events and sums their
`link.timestamp - event.timestamp` durations. -/
theorem aggregation_per_identity (k : AnlKind) (evs : List Event) :
    ((pprofAgg k evs).map Prod.fst).Nodup ∧
    (∀ sid : Nat, (alookup (pprofAgg k evs) sid).isSome ↔
      ∃ ev ∈ evs, retainedEv k ev = true ∧ ev.stkID = sid) ∧
    (∀ (sid : Nat) (r : Record), alookup (pprofAgg k evs) sid = some r →
      r.n = (filterEv k sid evs).length ∧
      r.time = ((filterEv k sid evs).map (fun ev => linkTsOf ev - ev.ts)).sum) := by
  refine ⟨aggEvents_keys_nodup k evs [] (by simp), ?_, ?_⟩
  · intro sid
    rw [show pprofAgg k evs = aggEvents k [] evs from rfl,
      alookup_aggEvents_isSome]
    simp [alookup]
  · intro sid r hr
    have hproj := lookupRec_aggEvents k evs [] sid
    have hn := recFold_n k sid evs (lookupRec [] sid)
    have ht := recFold_time k sid evs (lookupRec [] sid)
    rw [← hproj] at hn ht
    have hrd : lookupRec (aggEvents k [] evs) sid = r := by
      unfold lookupRec
      rw [show alookup (aggEvents k [] evs) sid = some r from hr]
      rfl
    rw [hrd] at hn ht
    simp only [lookupRec, alookup, Option.getD_none] at hn ht
    exact ⟨by simpa using hn, by simpa using ht⟩

def w2Stk : List Frame := [⟨100, "f", "a.go", 10⟩, ⟨200, "g", "b.go", 20⟩]

def w2Ev1 : Event := ⟨.EvGoBlockNet, 0, 7, w2Stk, some 100⟩

def w2Ev2 : Event := ⟨.EvGoBlockNet, 1000, 7, w2Stk, some 1150⟩

def w2Rec : Record := ⟨w2Stk, 2, 250⟩

/-- Witness for C2 at the specification's example: two block-on-network
events with `stackID = 7` and elapsed times 100 and 150 aggregate into
one record with count 2 and time 250. -/
theorem aggregation_per_identity_witness :
    w2Rec.n = 2 ∧ w2Rec.time = 250 ∧
    w2Rec.n = (filterEv AnlKind.io 7 [w2Ev1, w2Ev2]).length ∧
    w2Rec.time =
      ((filterEv AnlKind.io 7 [w2Ev1, w2Ev2]).map
        (fun ev => linkTsOf ev - ev.ts)).sum :=
  ⟨rfl, rfl,
   ((aggregation_per_identity AnlKind.io [w2Ev1, w2Ev2]).2.2 7 w2Rec
     (by decide)).1,
   ((aggregation_per_identity AnlKind.io [w2Ev1, w2Ev2]).2.2 7 w2Rec
     (by decide)).2⟩

/- ### Claim C3 -/

def c3Stk1 : List Frame := [⟨1, "f", "a.go", 1⟩]

def c3Stk2 : List Frame := [⟨2, "g", "b.go", 2⟩]

def c3Ev1 : Event := ⟨.EvGoBlockNet, 0, 1, c3Stk1, some 10⟩

def c3Ev2 : Event := ⟨.EvGoBlockNet, 0, 1, c3Stk2, some 20⟩

/-- Counterexample to C3: the loop body overwrites `rec.stk` on every
retained event, so after two retained events with the same identity but
different stacks the record holds the SECOND event's stack, not the
first's. -/
theorem representative_stack_cex :
    (filterEv AnlKind.io 1 [c3Ev1, c3Ev2]).head? = some c3Ev1 ∧
    (lookupRec (pprofAgg AnlKind.io [c3Ev1, c3Ev2]) 1).stk = c3Ev2.stk ∧
    c3Ev2.stk ≠ c3Ev1.stk := by decide

/-- C3 as amended: the record of a stack identity holds the stack of the
LAST retained event seen for that identity (every retained event
overwrites the stored stack reference). -/
theorem representative_stack_last (k : AnlKind) (evs : List Event)
    (sid : Nat) (r : Record)
    (h : alookup (pprofAgg k evs) sid = some r) :
    ∃ ev : Event, (filterEv k sid evs).getLast? = some ev ∧ r.stk = ev.stk := by
  have hsome : (alookup (aggEvents k [] evs) sid).isSome = true := by
    rw [show alookup (aggEvents k [] evs) sid = some r from h]
    rfl
  rw [alookup_aggEvents_isSome] at hsome
  simp only [alookup, Option.isSome_none, Bool.false_or] at hsome
  have hne : filterEv k sid evs ≠ [] := by
    unfold filterEv
    rw [Ne, List.filter_eq_nil_iff]
    rw [List.any_eq_true] at hsome
    obtain ⟨ev, hmem, hp⟩ := hsome
    exact fun hall => hall ev hmem hp
  have hproj := lookupRec_aggEvents k evs [] sid
  have hstk := recFold_stk k sid evs (lookupRec [] sid)
  rw [← hproj] at hstk
  have hrd : lookupRec (aggEvents k [] evs) sid = r := by
    unfold lookupRec
    rw [show alookup (aggEvents k [] evs) sid = some r from h]
    rfl
  rw [hrd] at hstk
  refine ⟨(filterEv k sid evs).getLast hne,
    List.getLast?_eq_getLast _ hne, ?_⟩
  rw [hstk, List.getLast?_map, List.getLast?_eq_getLast _ hne]
  rfl

/-- Witness for the amended C3: with the two events above, the stored
stack is exactly the last retained event's stack. -/
theorem representative_stack_last_witness :
    ∃ ev : Event,
      (filterEv AnlKind.io 1 [c3Ev1, c3Ev2]).getLast? = some ev ∧
      (⟨c3Stk2, 2, 30⟩ : Record).stk = ev.stk :=
  representative_stack_last AnlKind.io [c3Ev1, c3Ev2] 1 ⟨c3Stk2, 2, 30⟩
    (by decide)

/- ### Claim C4 -/

def c4f1 : Frame := ⟨1, "f", "x.go", 1⟩

def c4f2 : Frame := ⟨1, "g", "y.go", 2⟩

def c4f3 : Frame := ⟨2, "c", "ab", 3⟩

def c4f4 : Frame := ⟨3, "bc", "a", 4⟩

def c4recs : List Record := [⟨[c4f1, c4f2, c4f3, c4f4], 1, 0⟩]

/-- Counterexample to C4: the four frames carry four distinct
`(file, name)` pairs, but the built profile has only two Function
entries — the second frame's pair is shadowed because its pc is already
registered, and the fourth frame's pair `("a", "bc")` collides with
`("ab", "c")` under the concatenated key `"abc"`. -/
theorem build_counts_cex :
    (buildProfile c4recs).function.length = 2 ∧
    (((allFrames c4recs).map (fun f => (f.file, f.fn))).dedup).length = 4 := by
  decide

/-- C4 as amended: per build, the number of Samples equals the number of
input Records, the number of Locations equals the number of distinct pc
values across all frames, and the number of Functions equals the number
of distinct `file ++ name` strings among the first frame seen for each
distinct pc. -/
theorem build_counts (recs : List Record) :
    (buildProfile recs).sample.length = recs.length ∧
    (buildProfile recs).location.length =
      (((allFrames recs).map Frame.pc).dedup).length ∧
    (buildProfile recs).function.length =
      (((freshBy Frame.pc [] (allFrames recs)).map fkey).dedup).length := by
  obtain ⟨hsyncL, hsyncF⟩ := buildRecords_mapsSync recs initAcc ⟨rfl, rfl⟩
  obtain ⟨hkeysL, hkeysF⟩ := buildRecords_keys recs initAcc
  refine ⟨?_, ?_, ?_⟩
  · have h := congrArg List.length (buildRecords_sample_values recs initAcc)
    simpa [buildProfile, initAcc, initProfile] using h
  · have hlen : (buildRecords initAcc recs).locs.length =
        (addKeys Frame.pc [] (allFrames recs)).length := by
      have := congrArg List.length hkeysL
      simpa using this
    rw [show (buildProfile recs).location =
        (buildRecords initAcc recs).p.location from rfl, hsyncL, hlen,
      addKeys_length]
  · have hlen : (buildRecords initAcc recs).funcs.length =
        (addKeys fkey [] (freshBy Frame.pc [] (allFrames recs))).length := by
      have := congrArg List.length hkeysF
      simpa using this
    rw [show (buildProfile recs).function =
        (buildRecords initAcc recs).p.function from rfl, hsyncF, hlen,
      addKeys_length]

/- ### Claim C5 -/

def c5f1 : Frame := ⟨1, "f", "x.go", 1⟩

def c5f2 : Frame := ⟨1, "g", "y.go", 2⟩

def c5f3 : Frame := ⟨2, "c", "ab", 3⟩

def c5f4 : Frame := ⟨3, "bc", "a", 4⟩

def c5recs : List Record := [⟨[c5f1, c5f2, c5f3, c5f4], 1, 0⟩]

/-- Counterexample to C5: reading the sample's locations back does not
reproduce the original frame tuples — the second frame's metadata was
shadowed by the first frame's location (same pc), and the fourth frame's
function was resolved to the colliding key `"abc"`. -/
theorem round_trip_cex :
    (buildProfile c5recs).sample.map (fun s => s.location.map readLoc) ≠
      c5recs.map (fun r => r.stk.map frameTuple) := by
  decide

/-- C5 as amended: provided that, across all frames given to one build,
the pc determines the frame's file, name and line, and the concatenated
`file ++ name` key determines the `(file, name)` pair, reading back each
built Sample's ordered Location list — address, single Line's Function
filename and name, and Line number — reproduces that Record's frame
sequence of `(pc, file, name, line)` tuples in order. -/
theorem round_trip (recs : List Record)
    (hpcC : PcConsistent (allFrames recs))
    (hcc : ConcatInj (allFrames recs)) :
    (buildProfile recs).sample.map (fun s => s.location.map readLoc) =
      recs.map (fun r => r.stk.map frameTuple) :=
  buildProfile_roundtrip_aux recs hpcC hcc

def w5recs : List Record :=
  [⟨[⟨100, "f", "a.go", 10⟩, ⟨200, "g", "b.go", 20⟩], 2, 250⟩]

/-- Witness for the amended C5 on a consistent two-frame record. -/
theorem round_trip_witness :
    (buildProfile w5recs).sample.map (fun s => s.location.map readLoc) =
      w5recs.map (fun r => r.stk.map frameTuple) :=
  round_trip w5recs (by decide) (by decide)

/- ### Claim C6 -/

/-- C6: within one built profile, Function IDs and Location IDs are
assigned densely starting at 1 in first-seen order: the ID sequence down
each table is exactly `1, 2, ..., n`. -/
theorem ids_dense (recs : List Record) :
    (buildProfile recs).function.map (fun fn => fn.id) =
      List.range' 1 (buildProfile recs).function.length ∧
    (buildProfile recs).location.map (fun loc => loc.id) =
      List.range' 1 (buildProfile recs).location.length :=
  buildRecords_idsDense recs initAcc ⟨rfl, rfl⟩

/- ### Claim C7 -/

/-- C7: the profile builder is total — every build carries the fixed
period descriptor `{trace, count}`, period 1, and the two-entry
sample-type descriptor — and an event sequence with zero retained events
yields the profile with empty Function, Location and Sample lists and
that same header. -/
theorem builder_total (recs : List Record) (k : AnlKind) (evs : List Event) :
    (buildProfile recs).periodType = ⟨"trace", "count"⟩ ∧
    (buildProfile recs).period = 1 ∧
    (buildProfile recs).sampleType =
      [⟨"contentions", "count"⟩, ⟨"delay", "nanoseconds"⟩] ∧
    ((∀ ev ∈ evs, retainedEv k ev = false) →
      buildProfile (recordsOf (pprofAgg k evs)) =
        { periodType := ⟨"trace", "count"⟩
          period := 1
          sampleType := [⟨"contentions", "count"⟩, ⟨"delay", "nanoseconds"⟩]
          function := []
          location := []
          sample := [] }) := by
  obtain ⟨h1, h2, h3⟩ := buildRecords_header recs initAcc
  refine ⟨h1, h2, h3, ?_⟩
  intro hnone
  have hagg : pprofAgg k evs = [] := aggEvents_of_no_retained k evs [] hnone
  rw [hagg]
  rfl

def w7Ev : Event := ⟨.EvOther 5, 0, 1, [⟨1, "f", "a.go", 1⟩], some 3⟩

/-- Witness for C7: one non-matching event is fully filtered out and the
resulting profile is the empty-bodied one with the fixed header. -/
theorem builder_total_witness :
    buildProfile (recordsOf (pprofAgg AnlKind.io [w7Ev])) =
      { periodType := ⟨"trace", "count"⟩
        period := 1
        sampleType := [⟨"contentions", "count"⟩, ⟨"delay", "nanoseconds"⟩]
        function := []
        location := []
        sample := [] } :=
  (builder_total [] AnlKind.io [w7Ev]).2.2.2 (by decide)

/- ### Claim C8 -/

/-- C8: durations are signed — each retained event adds the signed
difference `link.timestamp - event.timestamp` to its record's time, and
the builder copies `[count, time]` into each Sample's value pair
unmodified, so a negative accumulated duration is carried through
without clamping. -/
theorem signed_duration :
    (∀ (k : AnlKind) (m : List (Nat × Record)) (ev : Event) (lts : Int),
      ev.linkTs = some lts → retainedEv k ev = true →
      (lookupRec (aggStep k m ev) ev.stkID).time =
        (lookupRec m ev.stkID).time + (lts - ev.ts)) ∧
    (∀ recs : List Record,
      (buildProfile recs).sample.map Sample.value =
        recs.map (fun rec => [Int.ofNat rec.n, rec.time])) := by
  constructor
  · intro k m ev lts hlink hret
    rw [lookupRec_aggStep]
    simp [hret, recUpdate, linkTsOf, hlink]
  · intro recs
    have h := buildRecords_sample_values recs initAcc
    simpa [buildProfile] using h

def w8Ev : Event := ⟨.EvGoBlockNet, 10, 1, [⟨1, "f", "a.go", 1⟩], some 4⟩

def w8Rec : Record := ⟨[⟨1, "f", "a.go", 1⟩], 1, -6⟩

/-- Witness for C8: a link timestamp earlier than the event's yields the
negative duration `4 - 10 = -6`, accumulated and then emitted in the
Sample's value pair as-is. -/
theorem signed_duration_witness :
    (lookupRec (aggStep AnlKind.io [] w8Ev) w8Ev.stkID).time =
      (lookupRec ([] : List (Nat × Record)) w8Ev.stkID).time + (4 - 10) ∧
    (buildProfile [w8Rec]).sample.map Sample.value = [[Int.ofNat 1, -6]] :=
  ⟨signed_duration.1 AnlKind.io [] w8Ev 4 rfl (by decide),
   signed_duration.2 [w8Rec]⟩

/- ### Claim C9 -/

/-- C9: each of the four entry points fails iff upstream event parsing
fails, propagating the parse error unchanged with no profile produced;
on parse success each entry point always returns a profile. -/
theorem entry_points_error :
    (∀ e : String,
      pprofIO (Except.error e) = Except.error e ∧
      pprofBlock (Except.error e) = Except.error e ∧
      pprofSyscall (Except.error e) = Except.error e ∧
      pprofSched (Except.error e) = Except.error e) ∧
    (∀ evs : List Event,
      (∃ p, pprofIO (Except.ok evs) = Except.ok p) ∧
      (∃ p, pprofBlock (Except.ok evs) = Except.ok p) ∧
      (∃ p, pprofSyscall (Except.ok evs) = Except.ok p) ∧
      (∃ p, pprofSched (Except.ok evs) = Except.ok p)) :=
  ⟨fun _ => ⟨rfl, rfl, rfl, rfl⟩,
   fun _ => ⟨⟨_, rfl⟩, ⟨_, rfl⟩, ⟨_, rfl⟩, ⟨_, rfl⟩⟩⟩

/- ### Claim C10 -/

/-- C10: during one build, Location lookup by pc takes full precedence
over frame metadata — when a frame's pc is already registered,
`buildFrame` returns the existing Location and the state entirely
unchanged, regardless of the frame's file, name and line (in particular
no new Function entry is created). -/
theorem location_precedence (acc : BuildAcc) (f : Frame) (loc : Location)
    (h : alookup acc.locs f.pc = some loc) :
    buildFrame acc f = (acc, loc) := by
  unfold buildFrame
  rw [h]

def w10Fn : Function := ⟨1, "f", "f", "x.go"⟩

def w10Loc : Location := ⟨1, 1, [⟨w10Fn, 1⟩]⟩

def w10Acc : BuildAcc :=
  { p := { initProfile with function := [w10Fn], location := [w10Loc] }
    locs := [(1, w10Loc)]
    funcs := [("x.gof", w10Fn)] }

def w10Frame : Frame := ⟨1, "h", "new.go", 99⟩

/-- Witness for C10: a frame with an already-registered pc but a
never-seen `(file, name)` pair resolves to the existing Location and
leaves the builder state untouched. -/
theorem location_precedence_witness :
    buildFrame w10Acc w10Frame = (w10Acc, w10Loc) :=
  location_precedence w10Acc w10Frame w10Loc (by decide)

end pprof
